import Mathlib

/-!
Shallow embedding of the markdown-to-HTML converter in src/parser/main.cpp
(second iteration: class Lexer and class Parser).

The input string is modelled as a `List Char`.  The C++ lexer keeps a cursor
`pos` into the text with `current_char = text[pos]` and `current_char = NUL`
once `pos` runs off the end; here the state is simply the list of characters
not yet consumed, `cur` is the C++ `current_char` (head, or NUL for the empty
list), `List.tail` is `advance()`, and `cur s.tail` is `peek()`.  A literal
NUL byte inside a C++ `std::string` behaves exactly like end of input in every
loop of the source (all of them test `current_char != 0`), and the model
reproduces that because `cur` returns the same NUL in both situations.

Each `handle_*` member function begins with `advance()` past the marker
character that dispatched to it, so the Lean versions take the input list
with that marker already removed.  `get_next_token` returns `none` for the
EOF sentinel (`Token::createEOF` / `isEOF`), which `Parser::parse` uses only
as the stop signal of its token-collection loop.

`Parser::parse` collects tokens with a `while (!token.isEOF())` loop.  That
loop is modelled with explicit fuel (`tokenizeFuel`); every non-EOF call of
`get_next_token` consumes at least one character, so fuel `length + 1` always
suffices, which is proved below (`tokenizeFuel_spec`) and is exactly the
termination claim of the specification.
-/

set_option maxRecDepth 8000

namespace Notedown

/-- Token kinds, enum `Type` of src/parser/main.cpp. -/
inductive TokenType where
  | TEXT | H1 | H2 | H3 | H4 | H5 | H6 | BOLD | ITALIC | LINK | IMAGE | LIST
deriving DecidableEq

/-- A lexer token: a kind together with its string payload (class `Token`).
The EOF sentinel (`is_eof`) is modelled by `Option` at the `get_next_token`
level instead of a boolean field. -/
structure Token where
  type : TokenType
  value : List Char
deriving DecidableEq

/-- The C++ `current_char` of a cursor state: head of the unconsumed input,
or NUL when the input is exhausted. -/
def cur : List Char → Char
  | [] => '\x00'
  | c :: _ => c

/-- C `isspace` on the characters it is actually applied to here:
space, tab, newline, vertical tab, form feed, carriage return. -/
def isspaceC (c : Char) : Bool :=
  c = ' ' || c = '\t' || c = '\n' || c = '\x0b' || c = '\x0c' || c = '\r'

/-- `Lexer::is_markdown_char`. -/
def is_markdown_char (c : Char) : Bool :=
  c = '#' || c = '*' || c = '[' || c = '!' || c = '-'

/-- `Lexer::collect_until` (every call site uses the default
`include_delimiter = false`): collect characters up to NUL, the delimiter, or
a newline, leaving the stopping character unconsumed.  Returns the collected
run and the rest of the input. -/
def collect_until (d : Char) : List Char → List Char × List Char
  | [] => ([], [])
  | c :: rest =>
    if c = '\x00' ∨ c = d ∨ c = '\n' then ([], c :: rest)
    else
      let p := collect_until d rest
      (c :: p.1, p.2)

/-- The `while (isspace(current_char) && current_char != '\n') advance();`
loop of `Lexer::handle_heading`. -/
def skipInlineSpace : List Char → List Char
  | [] => []
  | c :: rest => if isspaceC c ∧ c ≠ '\n' then skipInlineSpace rest else c :: rest

/-- The `if (current_char == '\n') advance();` steps after `collect_until`. -/
def dropNl (s : List Char) : List Char := if cur s = '\n' then s.tail else s

/-- The `while (current_char == '#' && level < 6)` loop of
`Lexer::handle_heading`, counting the run of hash marks. -/
def hashRun : List Char → Nat → Nat × List Char
  | [], level => (level, [])
  | c :: rest, level =>
    if c = '#' ∧ level < 6 then hashRun rest (level + 1)
    else (level, c :: rest)

/-- The final `switch (level)` of `Lexer::handle_heading`. -/
def headingToken : Nat → List Char → Token
  | 1, content => ⟨.H1, content⟩
  | 2, content => ⟨.H2, content⟩
  | 3, content => ⟨.H3, content⟩
  | 4, content => ⟨.H4, content⟩
  | 5, content => ⟨.H5, content⟩
  | 6, content => ⟨.H6, content⟩
  | level, content => ⟨.TEXT, List.replicate level '#' ++ content⟩

/-- `Lexer::handle_heading`, on the input after the dispatching first hash
has been consumed. -/
def handle_heading (s0 : List Char) : Token × List Char :=
  let r := hashRun s0 1
  if isspaceC (cur r.2) then
    let p := collect_until '\n' (skipInlineSpace r.2)
    (headingToken r.1 p.1, dropNl p.2)
  else
    let p := collect_until '\n' r.2
    (⟨.TEXT, List.replicate r.1 '#' ++ p.1⟩, dropNl p.2)

/-- The italic loop of `Lexer::handle_emphasis`: collect until a closing
star (second component `true`), or degrade at end of line / end of input
(second component `false`). -/
def italicLoop : List Char → List Char × Bool × List Char
  | [] => ([], false, [])
  | c :: rest =>
    if c = '\x00' ∨ c = '\n' then ([], false, c :: rest)
    else if c = '*' then ([], true, rest)
    else
      let p := italicLoop rest
      (c :: p.1, p.2.1, p.2.2)

/-- `Lexer::handle_emphasis`, on the input after the dispatching first star
has been consumed.  Note that in the bold fallback branch the source does
not advance past a lone closing star: the star goes into the TEXT payload
and stays in the stream. -/
def handle_emphasis (s0 : List Char) : Token × List Char :=
  if cur s0 = '*' then
    let p := collect_until '*' s0.tail
    if cur p.2 = '*' ∧ cur p.2.tail = '*' then (⟨.BOLD, p.1⟩, p.2.tail.tail)
    else (⟨.TEXT, '*' :: '*' :: (p.1 ++ if cur p.2 = '*' then ['*'] else [])⟩, p.2)
  else
    let q := italicLoop s0
    if q.2.1 then (⟨.ITALIC, q.1⟩, q.2.2)
    else (⟨.TEXT, '*' :: q.1⟩, q.2.2)

/-- The bracket-matching loop of `Lexer::handle_link`, with the running
`bracket_count`.  Returns the collected text, whether the count reached
zero (a balanced close), and the rest of the input. -/
def linkTextLoop : Nat → List Char → List Char × Bool × List Char
  | _, [] => ([], false, [])
  | bc, c :: rest =>
    if c = '\x00' then ([], false, c :: rest)
    else if c = '\\' ∧ cur rest = '[' then
      match rest with
      | [] => ([], false, [])  -- unreachable: cur of the empty list is NUL
      | _ :: rest' =>
        let p := linkTextLoop bc rest'
        ('[' :: p.1, p.2.1, p.2.2)
    else if c = '[' then
      let p := linkTextLoop (bc + 1) rest
      ('[' :: p.1, p.2.1, p.2.2)
    else if c = ']' then
      if bc = 1 then ([], true, rest)
      else
        let p := linkTextLoop (bc - 1) rest
        (']' :: p.1, p.2.1, p.2.2)
    else
      let p := linkTextLoop bc rest
      (c :: p.1, p.2.1, p.2.2)

/-- `Lexer::handle_link`, on the input after the dispatching opening bracket
has been consumed. -/
def handle_link (s0 : List Char) : Token × List Char :=
  let r := linkTextLoop 1 s0
  if r.2.1 then
    if cur r.2.2 = '(' then
      let p := collect_until ')' r.2.2.tail
      if cur p.2 = ')' then (⟨.LINK, r.1 ++ '|' :: p.1⟩, p.2.tail)
      else (⟨.TEXT, '[' :: (r.1 ++ ']' :: '(' :: p.1)⟩, p.2)
    else (⟨.TEXT, '[' :: (r.1 ++ [']'])⟩, r.2.2)
  else (⟨.TEXT, '[' :: r.1⟩, r.2.2)

/-- `Lexer::handle_image`, on the input after the dispatching bang has been
consumed. -/
def handle_image (s0 : List Char) : Token × List Char :=
  if cur s0 = '[' then
    let p := handle_link s0.tail
    if p.1.type = .LINK then (⟨.IMAGE, p.1.value⟩, p.2)
    else (⟨.TEXT, '!' :: p.1.value⟩, p.2)
  else (⟨.TEXT, ['!']⟩, s0)

/-- `Lexer::handle_list`, on the input after the dispatching dash has been
consumed. -/
def handle_list (s0 : List Char) : Token × List Char :=
  if isspaceC (cur s0) then
    let p := collect_until '\n' s0.tail
    (⟨.LIST, p.1⟩, dropNl p.2)
  else
    let p := collect_until '\n' s0
    (⟨.TEXT, '-' :: p.1⟩, dropNl p.2)

/-- The plain-text loop at the end of `Lexer::get_next_token`: collect
characters that are not markdown markers, stopping before a NUL, a marker,
or a pair of consecutive newlines. -/
def textRun : List Char → List Char × List Char
  | [] => ([], [])
  | c :: rest =>
    if c = '\x00' ∨ is_markdown_char c then ([], c :: rest)
    else if c = '\n' ∧ cur rest = '\n' then ([], c :: rest)
    else
      let p := textRun rest
      (c :: p.1, p.2)

/-- The trailing-newline trim applied to a collected text run. -/
def rtrimNl (s : List Char) : List Char := (s.reverse.dropWhile (· = '\n')).reverse

/-- `Lexer::get_next_token`.  `none` is the EOF sentinel. -/
def get_next_token (s : List Char) : Option (Token × List Char) :=
  if cur s = '\x00' then none
  else
    let s1 := s.dropWhile (· = '\n')
    if cur s1 = '\x00' then none
    else if cur s1 = '#' then some (handle_heading s1.tail)
    else if cur s1 = '*' then some (handle_emphasis s1.tail)
    else if cur s1 = '[' then some (handle_link s1.tail)
    else if cur s1 = '!' then some (handle_image s1.tail)
    else if cur s1 = '-' then some (handle_list s1.tail)
    else
      let p := textRun s1
      some (⟨.TEXT, rtrimNl p.1⟩, p.2)

/-- The token-collection loop of `Parser::parse`, with explicit fuel
bounding the number of iterations; `none` means the fuel ran out. -/
def tokenizeFuel : Nat → List Char → Option (List Token)
  | 0, _ => none
  | fuel + 1, s =>
    match get_next_token s with
    | none => some []
    | some (tk, rem) =>
      match tokenizeFuel fuel rem with
      | none => none
      | some ts => some (tk :: ts)

/-- The token list produced by `Parser::parse` for a given input.  Fuel
`length + 1` always suffices (`tokenizeFuel_spec` below). -/
def tokenize (s : List Char) : List Token := (tokenizeFuel (s.length + 1) s).getD []

/-- `Parser::escapeHtml`, one character. -/
def escapeChar (c : Char) : List Char :=
  if c = '<' then "&lt;".data
  else if c = '>' then "&gt;".data
  else if c = '&' then "&amp;".data
  else if c = '"' then "&quot;".data
  else [c]

/-- `Parser::escapeHtml`. -/
def escapeHtml : List Char → List Char
  | [] => []
  | c :: rest => escapeChar c ++ escapeHtml rest

/-- `Parser::isInlineElement`. -/
def isInlineElement : TokenType → Bool
  | .BOLD | .ITALIC | .LINK | .IMAGE => true
  | _ => false

/-- `Parser::isBlockElement`. -/
def isBlockElement : TokenType → Bool
  | .H1 | .H2 | .H3 | .H4 | .H5 | .H6 | .LIST => true
  | _ => false

/-- `Parser::tokenToHtml`.  For LINK and IMAGE the payload is split at the
first bar; `std::string::find` returning `npos` makes both `substr` calls
return the whole string, which the `else` branches reproduce. -/
def tokenToHtml (tk : Token) : List Char :=
  let content := escapeHtml tk.value
  match tk.type with
  | .TEXT => content
  | .H1 => "<h1>".data ++ content ++ "</h1>\n".data
  | .H2 => "<h2>".data ++ content ++ "</h2>\n".data
  | .H3 => "<h3>".data ++ content ++ "</h3>\n".data
  | .H4 => "<h4>".data ++ content ++ "</h4>\n".data
  | .H5 => "<h5>".data ++ content ++ "</h5>\n".data
  | .H6 => "<h6>".data ++ content ++ "</h6>\n".data
  | .BOLD => "<strong>".data ++ content ++ "</strong>".data
  | .ITALIC => "<em>".data ++ content ++ "</em>".data
  | .LIST => "<li>".data ++ content ++ "</li>\n".data
  | .LINK =>
    let t := content.takeWhile (· ≠ '|')
    let u := if content.any (· = '|') then (content.dropWhile (· ≠ '|')).tail else content
    "<a href=\"".data ++ u ++ "\">".data ++ t ++ "</a>".data
  | .IMAGE =>
    let a := content.takeWhile (· ≠ '|')
    let u := if content.any (· = '|') then (content.dropWhile (· ≠ '|')).tail else content
    "<img src=\"".data ++ u ++ "\" alt=\"".data ++ a ++ "\">".data

/-- The token walk of `Parser::tokensToHtml`, carrying the `inList` and
`inParagraph` booleans; the final argument pair of the base case performs
the closing of any still-open list or paragraph after the walk. -/
def renderLoop : List Token → Bool → Bool → List Char
  | [], inList, inP =>
    (if inList then "</ul>\n".data else []) ++ (if inP then "</p>\n".data else [])
  | tk :: rest, inList, inP =>
    let isL := tk.type = TokenType.LIST
    let listPre : List Char :=
      if isL then
        (if inP then "</p>\n".data else []) ++ (if inList then [] else "<ul>\n".data)
      else if inList then "</ul>\n".data else []
    let inList1 : Bool := isL
    let inP1 : Bool := if isL then false else inP
    let openP : Bool := (tk.type = TokenType.TEXT || isInlineElement tk.type) && !inP1
    let closeP : Bool := inP1 && isBlockElement tk.type
    let paraPre : List Char :=
      if openP then "<p>".data else if closeP then "</p>\n".data else []
    let inP2 : Bool := if openP then true else if closeP then false else inP1
    let lastOrBlock : Bool :=
      match rest with
      | [] => true
      | nxt :: _ => isBlockElement nxt.type
    let post : List Char := if inP2 && lastOrBlock then "</p>\n".data else []
    let inP3 : Bool := if inP2 && lastOrBlock then false else inP2
    listPre ++ (paraPre ++ (tokenToHtml tk ++ (post ++ renderLoop rest inList1 inP3)))

/-- `Parser::tokensToHtml`. -/
def tokensToHtml (tokens : List Token) : List Char := renderLoop tokens false false

/-- `Parser::parse`: lex the whole input, then render the token list. -/
def parse (s : List Char) : List Char := tokensToHtml (tokenize s)

/-- The public surface of the specification,
`render_markdown(input: string) -> string`, realised by `Parser::parse`. -/
def render_markdown (s : String) : String := String.mk (parse s.data)

/-- Concatenation of the payloads of a token list, used to state the
character-preservation claim about degraded (fallback) text. -/
def tokensValues : List Token → List Char
  | [] => []
  | tk :: rest => tk.value ++ tokensValues rest

/-- Whether `needle` occurs at the front of the second list. -/
def seqAt : List Char → List Char → Bool
  | [], _ => true
  | _ :: _, [] => false
  | a :: as, b :: bs => a = b && seqAt as bs

/-- Whether `needle` occurs contiguously anywhere in the haystack; used to
state the absence of a given HTML tag in an output. -/
def containsSeq (needle : List Char) : List Char → Bool
  | [] => seqAt needle []
  | c :: rest => seqAt needle (c :: rest) || containsSeq needle rest

/-! ### Progress lemmas

Every step of the lexer consumes input and never grows it; a non-EOF
`get_next_token` call consumes at least one character.  These facts bound the
token-collection loop of `Parser::parse` and justify the fuel `length + 1`
used in `tokenize`. -/

theorem dropWhile_length_le (p : Char → Bool) (l : List Char) :
    (l.dropWhile p).length ≤ l.length := by
  induction l with
  | nil => simp
  | cons c rest ih =>
    rw [List.dropWhile_cons]
    split
    · exact Nat.le_trans ih (by simp)
    · exact Nat.le_refl _

theorem tail_length_le (s : List Char) : s.tail.length ≤ s.length := by
  cases s <;> simp

theorem collect_until_length (d : Char) (s : List Char) :
    (collect_until d s).2.length ≤ s.length := by
  induction s with
  | nil => simp [collect_until]
  | cons c rest ih =>
    simp only [collect_until]
    split
    · simp
    · simp only [List.length_cons]
      exact Nat.le_trans ih (Nat.le_succ _)

theorem skipInlineSpace_length (s : List Char) :
    (skipInlineSpace s).length ≤ s.length := by
  induction s with
  | nil => simp [skipInlineSpace]
  | cons c rest ih =>
    simp only [skipInlineSpace]
    split
    · exact Nat.le_trans ih (by simp)
    · exact Nat.le_refl _

theorem dropNl_length (s : List Char) : (dropNl s).length ≤ s.length := by
  unfold dropNl
  split
  · exact tail_length_le s
  · exact Nat.le_refl _

theorem hashRun_length (s : List Char) : ∀ level, (hashRun s level).2.length ≤ s.length := by
  induction s with
  | nil => intro level; simp [hashRun]
  | cons c rest ih =>
    intro level
    simp only [hashRun]
    split
    · exact Nat.le_trans (ih _) (by simp)
    · exact Nat.le_refl _

theorem italicLoop_length (s : List Char) : (italicLoop s).2.2.length ≤ s.length := by
  induction s with
  | nil => simp [italicLoop]
  | cons c rest ih =>
    simp only [italicLoop]
    split
    · exact Nat.le_refl _
    · split
      · simp
      · simp only [List.length_cons]
        exact Nat.le_trans ih (Nat.le_succ _)

theorem linkTextLoop_length (bc : Nat) (s : List Char) :
    (linkTextLoop bc s).2.2.length ≤ s.length := by
  induction bc, s using linkTextLoop.induct with
  | case1 bc => simp [linkTextLoop]
  | case2 bc rest => rw [linkTextLoop.eq_def]; simp
  | case3 bc c h0 hesc => exact absurd hesc.2 (by simp [cur])
  | case4 bc c h0 c1 tail hesc ih =>
    rw [linkTextLoop.eq_def]
    simp only [if_neg h0, if_pos hesc]
    simp only [List.length_cons]
    omega
  | case5 bc rest h0 hesc ih =>
    rw [linkTextLoop.eq_def]
    simp only [if_neg h0, if_neg hesc, if_pos rfl, ite_true]
    simp only [List.length_cons]
    omega
  | case6 rest h0 hesc hbr =>
    rw [linkTextLoop.eq_def]
    simp only [if_neg h0, if_neg hesc, if_neg hbr, if_pos rfl, ite_true]
    simp only [List.length_cons]
    omega
  | case7 bc rest hbc h0 hesc hbr ih =>
    rw [linkTextLoop.eq_def]
    simp only [if_neg h0, if_neg hesc, if_neg hbr, if_pos rfl, ite_true, if_neg hbc]
    simp only [List.length_cons]
    omega
  | case8 bc c rest h0 hesc hbr hbc ih =>
    rw [linkTextLoop.eq_def]
    simp only [if_neg h0, if_neg hesc, if_neg hbr, if_neg hbc]
    simp only [List.length_cons]
    omega

theorem textRun_length (s : List Char) : (textRun s).2.length ≤ s.length := by
  induction s with
  | nil => simp [textRun]
  | cons c rest ih =>
    simp only [textRun]
    split
    · exact Nat.le_refl _
    · split
      · exact Nat.le_refl _
      · simp only [List.length_cons]
        exact Nat.le_trans ih (Nat.le_succ _)

theorem handle_heading_length (s : List Char) : (handle_heading s).2.length ≤ s.length := by
  simp only [handle_heading]
  split
  · exact Nat.le_trans (dropNl_length _) (Nat.le_trans (collect_until_length _ _)
      (Nat.le_trans (skipInlineSpace_length _) (hashRun_length s 1)))
  · exact Nat.le_trans (dropNl_length _) (Nat.le_trans (collect_until_length _ _)
      (hashRun_length s 1))

theorem handle_emphasis_length (s : List Char) : (handle_emphasis s).2.length ≤ s.length := by
  simp only [handle_emphasis]
  have hc := collect_until_length '*' s.tail
  have ht := tail_length_le s
  have hi := italicLoop_length s
  split
  · split
    · show (collect_until '*' s.tail).2.tail.tail.length ≤ s.length
      simp only [List.length_tail]
      omega
    · show (collect_until '*' s.tail).2.length ≤ s.length
      omega
  · split
    · exact hi
    · exact hi

theorem handle_link_length (s : List Char) : (handle_link s).2.length ≤ s.length := by
  simp only [handle_link]
  have hl := linkTextLoop_length 1 s
  have ht := tail_length_le (linkTextLoop 1 s).2.2
  have hc := collect_until_length ')' (linkTextLoop 1 s).2.2.tail
  have ht2 := tail_length_le (collect_until ')' (linkTextLoop 1 s).2.2.tail).2
  split
  · split
    · split
      · show (collect_until ')' (linkTextLoop 1 s).2.2.tail).2.tail.length ≤ s.length
        omega
      · show (collect_until ')' (linkTextLoop 1 s).2.2.tail).2.length ≤ s.length
        omega
    · exact hl
  · exact hl

theorem handle_image_length (s : List Char) : (handle_image s).2.length ≤ s.length := by
  simp only [handle_image]
  have h := handle_link_length s.tail
  have ht := tail_length_le s
  split
  · split
    · show (handle_link s.tail).2.length ≤ s.length
      omega
    · show (handle_link s.tail).2.length ≤ s.length
      omega
  · exact Nat.le_refl _

theorem handle_list_length (s : List Char) : (handle_list s).2.length ≤ s.length := by
  simp only [handle_list]
  split
  · exact Nat.le_trans (dropNl_length _) (Nat.le_trans (collect_until_length _ _)
      (tail_length_le s))
  · exact Nat.le_trans (dropNl_length _) (collect_until_length _ _)

theorem cur_dropWhile_nl (s : List Char) : cur (s.dropWhile (· = '\n')) ≠ '\n' := by
  induction s with
  | nil => simp [cur]
  | cons c rest ih =>
    rw [List.dropWhile_cons]
    split
    · exact ih
    · next hc =>
      simp only [decide_eq_true_eq] at hc
      simpa [cur] using hc

theorem textRun_length_lt (s : List Char) (hne : s ≠ []) (h0 : cur s ≠ '\x00')
    (hmd : ¬ is_markdown_char (cur s)) (hnl : cur s ≠ '\n') :
    (textRun s).2.length < s.length := by
  cases s with
  | nil => exact absurd rfl hne
  | cons c rest =>
    simp only [cur] at h0 hmd hnl
    simp only [textRun]
    rw [if_neg, if_neg]
    · simpa using Nat.lt_succ_of_le (textRun_length rest)
    · intro hh
      exact hnl hh.1
    · intro hh
      rcases hh with hh | hh
      · exact h0 hh
      · exact hmd hh

theorem get_next_token_length {s : List Char} {tk : Token} {rem : List Char}
    (h : get_next_token s = some (tk, rem)) : rem.length < s.length := by
  unfold get_next_token at h
  by_cases h0 : cur s = '\x00'
  · rw [if_pos h0] at h
    exact absurd h (by simp)
  · rw [if_neg h0] at h
    have hle : (s.dropWhile (· = '\n')).length ≤ s.length := dropWhile_length_le _ s
    by_cases h1 : cur (s.dropWhile (· = '\n')) = '\x00'
    · rw [if_pos h1] at h
      exact absurd h (by simp)
    · rw [if_neg h1] at h
      have hne : s.dropWhile (· = '\n') ≠ [] := by
        intro hh
        rw [hh] at h1
        exact h1 rfl
      have htail : (s.dropWhile (· = '\n')).tail.length + 1 =
          (s.dropWhile (· = '\n')).length := by
        cases hd : s.dropWhile (· = '\n') with
        | nil => exact absurd hd hne
        | cons a b => simp
      split_ifs at h with h2 h3 h4 h5 h6
      · have := handle_heading_length (s.dropWhile (· = '\n')).tail
        injection h with h'
        have hrem : (handle_heading (s.dropWhile (· = '\n')).tail).2 = rem :=
          congrArg Prod.snd h'
        rw [← hrem]
        omega
      · have := handle_emphasis_length (s.dropWhile (· = '\n')).tail
        injection h with h'
        have hrem : (handle_emphasis (s.dropWhile (· = '\n')).tail).2 = rem :=
          congrArg Prod.snd h'
        rw [← hrem]
        omega
      · have := handle_link_length (s.dropWhile (· = '\n')).tail
        injection h with h'
        have hrem : (handle_link (s.dropWhile (· = '\n')).tail).2 = rem :=
          congrArg Prod.snd h'
        rw [← hrem]
        omega
      · have := handle_image_length (s.dropWhile (· = '\n')).tail
        injection h with h'
        have hrem : (handle_image (s.dropWhile (· = '\n')).tail).2 = rem :=
          congrArg Prod.snd h'
        rw [← hrem]
        omega
      · have := handle_list_length (s.dropWhile (· = '\n')).tail
        injection h with h'
        have hrem : (handle_list (s.dropWhile (· = '\n')).tail).2 = rem :=
          congrArg Prod.snd h'
        rw [← hrem]
        omega
      · have hlt := textRun_length_lt (s.dropWhile (· = '\n')) hne h1
          (by simp only [is_markdown_char]; intro hh; simp only [Bool.or_eq_true,
            decide_eq_true_eq] at hh; rcases hh with ((((a | a) | a) | a) | a) <;> simp_all)
          (cur_dropWhile_nl s)
        injection h with h'
        have hrem : (textRun (s.dropWhile (· = '\n'))).2 = rem :=
          congrArg Prod.snd h'
        rw [← hrem]
        omega

/-! ### Fuel adequacy for the token-collection loop of `Parser::parse` -/

theorem tokenizeFuel_irrel : ∀ (f₁ : Nat) (s : List Char) (f₂ : Nat),
    s.length < f₁ → s.length < f₂ → tokenizeFuel f₁ s = tokenizeFuel f₂ s := by
  intro f₁
  induction f₁ with
  | zero => intro s f₂ h₁ _; exact absurd h₁ (Nat.not_lt_zero _)
  | succ g ih =>
    intro s f₂ h₁ h₂
    cases f₂ with
    | zero => exact absurd h₂ (Nat.not_lt_zero _)
    | succ g₂ =>
      simp only [tokenizeFuel]
      cases hg : get_next_token s with
      | none => rfl
      | some pr =>
        obtain ⟨tk, rem⟩ := pr
        have hlen := get_next_token_length hg
        dsimp only
        rw [ih rem g₂ (by omega) (by omega)]

theorem tokenizeFuel_isSome : ∀ (fuel : Nat) (s : List Char),
    s.length < fuel → (tokenizeFuel fuel s).isSome := by
  intro fuel
  induction fuel with
  | zero => intro s h; exact absurd h (Nat.not_lt_zero _)
  | succ g ih =>
    intro s h
    simp only [tokenizeFuel]
    cases hg : get_next_token s with
    | none => rfl
    | some pr =>
      obtain ⟨tk, rem⟩ := pr
      have hlen := get_next_token_length hg
      have := ih rem (by omega)
      cases hr : tokenizeFuel g rem with
      | none => rw [hr] at this; exact absurd this (by simp)
      | some ts => dsimp only; rw [hr]; rfl

/-- The C++ loop `while (!token.isEOF())` of `Parser::parse` performs at most
`length + 1` calls of `get_next_token`: fuel `length + 1` never runs out. -/
theorem tokenizeFuel_spec (s : List Char) :
    tokenizeFuel (s.length + 1) s = some (tokenize s) := by
  have hB := tokenizeFuel_isSome (s.length + 1) s (by omega)
  obtain ⟨ts, hts⟩ := Option.isSome_iff_exists.mp hB
  unfold tokenize
  rw [hts]
  rfl

theorem tokenize_eq_nil {s : List Char} (h : get_next_token s = none) :
    tokenize s = [] := by
  unfold tokenize
  simp only [tokenizeFuel, h]
  rfl

theorem tokenize_eq_cons {s : List Char} {tk : Token} {rem : List Char}
    (h : get_next_token s = some (tk, rem)) : tokenize s = tk :: tokenize rem := by
  have hlen := get_next_token_length h
  have h2 : tokenizeFuel s.length rem = some (tokenize rem) := by
    rw [tokenizeFuel_irrel s.length rem (rem.length + 1) hlen (by omega)]
    exact tokenizeFuel_spec rem
  have h3 : tokenizeFuel (s.length + 1) s = some (tk :: tokenize rem) := by
    simp only [tokenizeFuel, h, h2]
  have h1 := tokenizeFuel_spec s
  rw [h1] at h3
  exact Option.some.inj h3

/-! ### Behaviour of the scanning loops on clean input -/

theorem collect_until_all (d : Char) (s : List Char)
    (h : ∀ c ∈ s, c ≠ '\x00' ∧ c ≠ d ∧ c ≠ '\n') :
    collect_until d s = (s, []) := by
  induction s with
  | nil => simp [collect_until]
  | cons c rest ih =>
    have hc := h c (by simp)
    have hr : collect_until d rest = (rest, []) := ih fun x hx => h x (by simp [hx])
    simp only [collect_until, if_neg (show ¬(c = '\x00' ∨ c = d ∨ c = '\n') by tauto), hr]

theorem textRun_all (s : List Char)
    (h : ∀ c ∈ s, c ≠ '\x00' ∧ is_markdown_char c = false ∧ c ≠ '\n') :
    textRun s = (s, []) := by
  induction s with
  | nil => simp [textRun]
  | cons c rest ih =>
    have hc := h c (by simp)
    have hr : textRun rest = (rest, []) := ih fun x hx => h x (by simp [hx])
    simp only [textRun,
      if_neg (show ¬(c = '\x00' ∨ is_markdown_char c = true) by
        rintro (hh | hh)
        · exact hc.1 hh
        · rw [hc.2.1] at hh; exact Bool.false_ne_true hh),
      if_neg (show ¬(c = '\n' ∧ cur rest = '\n') from fun hh => hc.2.2 hh.1), hr]

theorem textRun_blank (a b : List Char)
    (h : ∀ c ∈ a, c ≠ '\x00' ∧ is_markdown_char c = false ∧ c ≠ '\n') :
    textRun (a ++ '\n' :: '\n' :: b) = (a, '\n' :: '\n' :: b) := by
  induction a with
  | nil => simp [textRun, cur]
  | cons c rest ih =>
    have hc := h c (by simp)
    have hr := ih fun x hx => h x (by simp [hx])
    simp only [List.cons_append, textRun]
    split_ifs with h1 h2
    · rcases h1 with hh | hh
      · exact absurd hh hc.1
      · rw [hc.2.1] at hh; exact absurd hh Bool.false_ne_true
    · exact absurd h2.1 hc.2.2
    · simp only [List.append_eq] at hr ⊢
      simp only [hr]

theorem rtrimNl_eq_self (s : List Char) (h : ∀ c ∈ s, c ≠ '\n') :
    rtrimNl s = s := by
  unfold rtrimNl
  rw [List.dropWhile_eq_self_iff.mpr, List.reverse_reverse]
  intro hx
  have hmem : s.reverse.get ⟨0, hx⟩ ∈ s := by
    rw [← List.mem_reverse]
    exact List.get_mem s.reverse _ hx
  simp only [decide_eq_true_eq]
  exact h _ hmem

theorem dropWhile_nl_cons (c : Char) (rest : List Char) (h : c ≠ '\n') :
    (c :: rest).dropWhile (· = '\n') = c :: rest := by
  rw [List.dropWhile_cons, if_neg]
  simp [h]

theorem linkTextLoop_balanced (text rest : List Char)
    (h : ∀ c ∈ text, c ≠ '\x00' ∧ c ≠ '\\' ∧ c ≠ '[' ∧ c ≠ ']') :
    linkTextLoop 1 (text ++ ']' :: rest) = (text, true, rest) := by
  induction text with
  | nil =>
    rw [List.nil_append, linkTextLoop.eq_def]
    simp only [if_neg (show ¬(']' : Char) = '\x00' by decide),
      if_neg (show ¬((']' : Char) = '\\' ∧ cur rest = '[') from fun hh =>
        absurd hh.1 (by decide)),
      if_neg (show ¬(']' : Char) = '[' by decide), if_pos rfl, ite_true]
  | cons c text' ih =>
    have hc := h c (by simp)
    have hr := ih fun x hx => h x (by simp [hx])
    rw [List.cons_append, linkTextLoop.eq_def]
    simp only [if_neg hc.1,
      if_neg (show ¬(c = '\\' ∧ cur (text' ++ ']' :: rest) = '[') from fun hh =>
        hc.2.1 hh.1),
      if_neg hc.2.2.1, if_neg hc.2.2.2, hr]

theorem hashRun_replicate (m : Nat) (rest : List Char) (hhead : cur rest ≠ '#') :
    ∀ level, 1 ≤ level → level ≤ 6 →
    hashRun (List.replicate m '#' ++ rest) level =
      if level + m ≤ 6 then (level + m, rest)
      else (6, List.replicate (level + m - 6) '#' ++ rest) := by
  induction m with
  | zero =>
    intro level h1 h6
    rw [List.replicate_zero, List.nil_append, if_pos (by omega)]
    cases rest with
    | nil => simp [hashRun]
    | cons c rrest =>
      have hcne : c ≠ '#' := by simpa [cur] using hhead
      simp only [hashRun]
      rw [if_neg (fun hh => hcne hh.1)]
      simp
  | succ n ih =>
    intro level h1 h6
    rw [List.replicate_succ, List.cons_append]
    simp only [hashRun]
    by_cases hl : level < 6
    · rw [if_pos ⟨trivial, hl⟩, ih (level + 1) (by omega) (by omega)]
      have he : level + 1 + n = level + (n + 1) := by omega
      rw [he]
    · have hl6 : level = 6 := by omega
      subst hl6
      rw [if_neg (fun hh => hl hh.2), if_neg (by omega)]
      have he : 6 + (n + 1) - 6 = n + 1 := by omega
      rw [he, List.replicate_succ]
      simp

theorem escapeHtml_id (s : List Char)
    (h : ∀ c ∈ s, c ≠ '<' ∧ c ≠ '>' ∧ c ≠ '&' ∧ c ≠ '"') :
    escapeHtml s = s := by
  induction s with
  | nil => rfl
  | cons c rest ih =>
    have hc := h c (by simp)
    have hr := ih fun x hx => h x (by simp [hx])
    simp only [escapeHtml, escapeChar, if_neg hc.1, if_neg hc.2.1, if_neg hc.2.2.1,
      if_neg hc.2.2.2, hr, List.singleton_append]

theorem get_next_token_nil : get_next_token [] = none := rfl

/-- A leading newline is skipped by the blank-line loop at the top of
`get_next_token`. -/
theorem get_next_token_cons_nl (s : List Char) :
    get_next_token ('\n' :: s) = get_next_token s := by
  have hdw : ('\n' :: s).dropWhile (· = '\n') = s.dropWhile (· = '\n') := by
    rw [List.dropWhile_cons, if_pos (by simp)]
  unfold get_next_token
  rw [if_neg (show ¬cur ('\n' :: s) = '\x00' by simp [cur]), hdw]
  by_cases h0 : cur s = '\x00'
  · have hcur : cur (s.dropWhile (· = '\n')) = '\x00' := by
      cases s with
      | nil => simp [cur]
      | cons c t =>
        have hc : c = '\x00' := by simpa [cur] using h0
        subst hc
        rw [dropWhile_nl_cons _ t (by decide)]
        simp [cur]
    rw [if_pos h0, if_pos hcur]
  · rw [if_neg h0]

/-! ### Behaviour of the renderer on small token lists -/

theorem tokensToHtml_single_text (v : List Char) :
    tokensToHtml [⟨.TEXT, v⟩] = "<p>".data ++ (escapeHtml v ++ "</p>\n".data) := by
  simp [tokensToHtml, renderLoop, tokenToHtml, isInlineElement, isBlockElement]

theorem tokensToHtml_two_text (a b : List Char) :
    tokensToHtml [⟨.TEXT, a⟩, ⟨.TEXT, b⟩] =
      "<p>".data ++ (escapeHtml a ++ (escapeHtml b ++ "</p>\n".data)) := by
  simp [tokensToHtml, renderLoop, tokenToHtml, isInlineElement, isBlockElement]

/-- Assembled single-token Text behaviour of the lexer on clean non-empty
input: the whole input comes back as one TEXT token. -/
theorem get_next_token_clean (c : Char) (rest : List Char)
    (hclean : ∀ x ∈ c :: rest, is_markdown_char x = false ∧ x ≠ '\n' ∧ x ≠ '\x00') :
    get_next_token (c :: rest) = some (⟨.TEXT, c :: rest⟩, []) := by
  have hc := hclean c (by simp)
  have hmd : (((¬c = '#' ∧ ¬c = '*') ∧ ¬c = '[') ∧ ¬c = '!') ∧ ¬c = '-' := by
    simpa [is_markdown_char] using hc.1
  unfold get_next_token
  rw [if_neg (show ¬cur (c :: rest) = '\x00' by simpa [cur] using hc.2.2)]
  simp only [dropWhile_nl_cons c rest hc.2.1]
  rw [if_neg (show ¬cur (c :: rest) = '\x00' by simpa [cur] using hc.2.2),
    if_neg (show ¬cur (c :: rest) = '#' by simpa [cur] using hmd.1.1.1.1),
    if_neg (show ¬cur (c :: rest) = '*' by simpa [cur] using hmd.1.1.1.2),
    if_neg (show ¬cur (c :: rest) = '[' by simpa [cur] using hmd.1.1.2),
    if_neg (show ¬cur (c :: rest) = '!' by simpa [cur] using hmd.1.2),
    if_neg (show ¬cur (c :: rest) = '-' by simpa [cur] using hmd.2)]
  have htr : textRun (c :: rest) = (c :: rest, []) :=
    textRun_all _ fun x hx => ⟨(hclean x hx).2.2, (hclean x hx).1, (hclean x hx).2.1⟩
  simp only [htr, rtrimNl_eq_self (c :: rest) fun x hx => (hclean x hx).2.1]

/-! ### The claims -/

/-- Claim C1: for every input string, `Parser::parse` terminates and returns
a complete HTML string without throwing or panicking — the token-collection
loop needs at most `length + 1` iterations of `get_next_token`, so the fuel
of `tokenize` never runs out — and the empty input yields the empty output
string. -/
theorem C1_render_total (s : List Char) :
    tokenizeFuel (s.length + 1) s = some (tokenize s) ∧ render_markdown "" = "" :=
  ⟨tokenizeFuel_spec s, by decide⟩

/-- Claim C2 (the code violates it): on the input `**a*` the bold fallback
emits TEXT `**a*` — the lone closing star is put into the payload but never
consumed, so it is lexed a second time as TEXT `*`; the concatenated
degraded text `**a**` duplicates the star and does not reproduce the
original characters. -/
theorem C2_bold_fallback_duplicates :
    tokenize "**a*".data = [⟨.TEXT, "**a*".data⟩, ⟨.TEXT, "*".data⟩] ∧
    tokensValues (tokenize "**a*".data) = "**a**".data ∧
    tokensValues (tokenize "**a*".data) ≠ "**a*".data := by decide

/-- Claim C3, counterexample: `Parser::escapeHtml` is not idempotent, since
the ampersand of an entity it produced is escaped again on the second pass:
escaping `&` once gives `&amp;` and twice gives `&amp;amp;`. -/
theorem C3_escape_counterexample :
    escapeHtml (escapeHtml "&".data) ≠ escapeHtml "&".data ∧
    escapeHtml "&".data = "&amp;".data ∧
    escapeHtml (escapeHtml "&".data) = "&amp;amp;".data := by decide

/-- Claim C3, amended: `Parser::escapeHtml` is idempotent exactly on strings
with no occurrence of the four escaped characters; on such strings it is the
identity, so re-escaping changes nothing. -/
theorem C3_escape_idempotent_on_plain (s : List Char)
    (h : ∀ c ∈ s, c ≠ '<' ∧ c ≠ '>' ∧ c ≠ '&' ∧ c ≠ '"') :
    escapeHtml (escapeHtml s) = escapeHtml s := by
  rw [escapeHtml_id s h, escapeHtml_id s h]

/-- Witness for the amended claim C3 at the input `plain text`. -/
theorem C3_escape_idempotent_witness :
    escapeHtml (escapeHtml "plain text".data) = escapeHtml "plain text".data :=
  C3_escape_idempotent_on_plain "plain text".data (by decide)

/-- Claim C4, counterexample: the input `a\n` is non-empty, not
whitespace-only and contains no marker character, yet the rendered output is
`<p>a</p>\n` — the trailing newline is trimmed from the text run — and not
the escaped input wrapped in a paragraph. -/
theorem C4_counterexample :
    ("a\n".data ≠ [] ∧ ¬ ("a\n".data.all fun c => isspaceC c) ∧
      ("a\n".data.all fun c => !is_markdown_char c)) ∧
    parse "a\n".data ≠ "<p>".data ++ (escapeHtml "a\n".data ++ "</p>\n".data) ∧
    parse "a\n".data = "<p>a</p>\n".data := by decide

/-- Claim C4, amended: for every non-empty, non-whitespace-only input with
no marker character, no newline and no NUL byte, the rendered output is the
HTML-escaped input wrapped in a single paragraph. -/
theorem C4_paragraph_wrap (s : List Char) (hne : s ≠ [])
    (hnws : ¬ ∀ c ∈ s, isspaceC c = true)
    (hclean : ∀ c ∈ s, is_markdown_char c = false ∧ c ≠ '\n' ∧ c ≠ '\x00') :
    parse s = "<p>".data ++ (escapeHtml s ++ "</p>\n".data) := by
  obtain ⟨c, rest, rfl⟩ := List.exists_cons_of_ne_nil hne
  have hgnt := get_next_token_clean c rest hclean
  unfold parse
  rw [tokenize_eq_cons hgnt, tokenize_eq_nil get_next_token_nil, tokensToHtml_single_text]

/-- Witness for the amended claim C4 at the input `hello, world.`. -/
theorem C4_paragraph_wrap_witness :
    parse "hello, world.".data =
      "<p>".data ++ (escapeHtml "hello, world.".data ++ "</p>\n".data) :=
  C4_paragraph_wrap "hello, world.".data (by decide) (by decide) (by decide)

/-- Claim C5, counterexample: on `*outer **inner** outer*` the lexer emits
three Italic tokens, so the tokens after the first are not Text tokens as
the claim asserts. -/
theorem C5_counterexample :
    (tokenize "*outer **inner** outer*".data).map Token.type =
      [.ITALIC, .ITALIC, .ITALIC] ∧
    ¬ ((tokenize "*outer **inner** outer*".data).tail.all fun tk =>
        decide (tk.type = TokenType.TEXT)) := by decide

/-- Claim C5, amended: lexing `*outer **inner** outer*` emits Italic
`outer ` and then re-lexes the remainder as two further Italic tokens,
`inner` and ` outer`, not as Text. -/
theorem C5_nested_emphasis :
    tokenize "*outer **inner** outer*".data =
      [⟨.ITALIC, "outer ".data⟩, ⟨.ITALIC, "inner".data⟩, ⟨.ITALIC, " outer".data⟩] := by
  decide

/-- Claim C6: the mixed document renders to exactly the expected HTML. -/
theorem C6_mixed_document :
    parse "# Title\nSome **bold** text.\n- item".data =
      "<h1>Title</h1>\n<p>Some <strong>bold</strong> text.</p>\n<ul>\n<li>item</li>\n</ul>\n".data := by
  decide

/-- Claim C7: the unclosed bold input `**bold` lexes to a single Text token
holding both asterisks, renders as a literal paragraph, and the output
contains no strong tag. -/
theorem C7_unclosed_bold :
    tokenize "**bold".data = [⟨.TEXT, "**bold".data⟩] ∧
    parse "**bold".data = "<p>**bold</p>\n".data ∧
    containsSeq "<strong>".data (parse "**bold".data) = false ∧
    containsSeq "**".data (parse "**bold".data) = true := by decide

/-- Claim C8: a line that starts with a run of hashes not followed by
whitespace lexes to a single Text token holding the hash run plus the rest
of the line, and renders as that text inside a paragraph (no heading tag is
produced since the output is exactly the paragraph wrapping). -/
theorem C8_heading_no_space (k : Nat) (rest : List Char) (hk : 1 ≤ k)
    (hhash : cur rest ≠ '#') (hsp : isspaceC (cur rest) = false)
    (hclean : ∀ c ∈ rest, c ≠ '\n' ∧ c ≠ '\x00') :
    tokenize (List.replicate k '#' ++ rest) =
      [⟨.TEXT, List.replicate k '#' ++ rest⟩] ∧
    parse (List.replicate k '#' ++ rest) =
      "<p>".data ++ (escapeHtml (List.replicate k '#' ++ rest) ++ "</p>\n".data) := by
  obtain ⟨k1, rfl⟩ : ∃ k1, k = k1 + 1 := ⟨k - 1, by omega⟩
  have hhh : handle_heading (List.replicate k1 '#' ++ rest) =
      (⟨.TEXT, List.replicate (k1 + 1) '#' ++ rest⟩, []) := by
    unfold handle_heading
    rw [hashRun_replicate k1 rest hhash 1 (by omega) (by omega)]
    by_cases hk6 : 1 + k1 ≤ 6
    · rw [if_pos hk6]
      rw [if_neg (show ¬isspaceC (cur rest) = true by simp [hsp])]
      rw [collect_until_all '\n' rest
        (fun x hx => ⟨(hclean x hx).2, (hclean x hx).1, (hclean x hx).1⟩)]
      have h1 : 1 + k1 = k1 + 1 := by omega
      rw [h1]
      simp [dropNl, cur]
    · rw [if_neg hk6]
      obtain ⟨m1, hm⟩ : ∃ m1, 1 + k1 - 6 = m1 + 1 := ⟨1 + k1 - 7, by omega⟩
      rw [hm, List.replicate_succ, List.cons_append]
      rw [if_neg (show ¬isspaceC (cur ('#' :: (List.replicate m1 '#' ++ rest))) = true by
        simp [cur, isspaceC])]
      rw [collect_until_all '\n' ('#' :: (List.replicate m1 '#' ++ rest)) ?hchars]
      case hchars =>
        intro x hx
        rcases List.mem_cons.mp hx with rfl | hx2
        · exact ⟨by decide, by decide, by decide⟩
        · rcases List.mem_append.mp hx2 with hx3 | hx3
          · have hx4 := List.eq_of_mem_replicate hx3
            subst hx4
            exact ⟨by decide, by decide, by decide⟩
          · exact ⟨(hclean x hx3).2, (hclean x hx3).1, (hclean x hx3).1⟩
      dsimp only
      rw [← List.cons_append, ← List.replicate_succ, ← List.append_assoc,
        ← List.replicate_add]
      have h2 : 6 + (m1 + 1) = k1 + 1 := by omega
      rw [h2]
      simp [dropNl, cur]
  have hgnt : get_next_token (List.replicate (k1 + 1) '#' ++ rest) =
      some (⟨.TEXT, List.replicate (k1 + 1) '#' ++ rest⟩, []) := by
    rw [List.replicate_succ, List.cons_append]
    unfold get_next_token
    rw [if_neg (show ¬cur ('#' :: (List.replicate k1 '#' ++ rest)) = '\x00' by simp [cur])]
    rw [dropWhile_nl_cons _ _ (by decide)]
    rw [if_neg (show ¬cur ('#' :: (List.replicate k1 '#' ++ rest)) = '\x00' by simp [cur]),
      if_pos (show cur ('#' :: (List.replicate k1 '#' ++ rest)) = '#' from rfl)]
    show some (handle_heading (List.replicate k1 '#' ++ rest)) = _
    rw [hhh, List.replicate_succ, List.cons_append]
  constructor
  · rw [tokenize_eq_cons hgnt, tokenize_eq_nil get_next_token_nil]
  · unfold parse
    rw [tokenize_eq_cons hgnt, tokenize_eq_nil get_next_token_nil, tokensToHtml_single_text]

/-- Witness for claim C8 at the input `#Invalid`. -/
theorem C8_heading_no_space_witness :
    parse (List.replicate 1 '#' ++ "Invalid".data) =
      "<p>".data ++ (escapeHtml (List.replicate 1 '#' ++ "Invalid".data) ++ "</p>\n".data) :=
  (C8_heading_no_space 1 "Invalid".data (by decide) (by decide) (by decide) (by decide)).2

/-- Claim C9: a link whose balanced bracket text is followed by an opening
parenthesis but whose URL part is never closed degrades to a single Text
token holding the original characters without the closing parenthesis, and
renders as literal paragraph text. -/
theorem C9_unclosed_url (text url : List Char)
    (htext : ∀ c ∈ text, c ≠ '\x00' ∧ c ≠ '\\' ∧ c ≠ '[' ∧ c ≠ ']')
    (hurl : ∀ c ∈ url, c ≠ '\x00' ∧ c ≠ ')' ∧ c ≠ '\n') :
    tokenize ('[' :: (text ++ ']' :: '(' :: url)) =
      [⟨.TEXT, '[' :: (text ++ ']' :: '(' :: url)⟩] ∧
    parse ('[' :: (text ++ ']' :: '(' :: url)) =
      "<p>".data ++ (escapeHtml ('[' :: (text ++ ']' :: '(' :: url)) ++ "</p>\n".data) := by
  have hhl : handle_link (text ++ ']' :: '(' :: url) =
      (⟨.TEXT, '[' :: (text ++ ']' :: '(' :: url)⟩, []) := by
    unfold handle_link
    rw [linkTextLoop_balanced text ('(' :: url) htext]
    dsimp only [List.tail_cons]
    rw [if_pos rfl, if_pos (show cur ('(' :: url) = '(' from rfl),
      collect_until_all ')' url
        (fun x hx => ⟨(hurl x hx).1, (hurl x hx).2.1, (hurl x hx).2.2⟩)]
    dsimp only
    rw [if_neg (show ¬cur ([] : List Char) = ')' by decide)]
  have hgnt : get_next_token ('[' :: (text ++ ']' :: '(' :: url)) =
      some (⟨.TEXT, '[' :: (text ++ ']' :: '(' :: url)⟩, []) := by
    unfold get_next_token
    rw [if_neg (show ¬cur ('[' :: (text ++ ']' :: '(' :: url)) = '\x00' by simp [cur])]
    rw [dropWhile_nl_cons _ _ (by decide)]
    rw [if_neg (show ¬cur ('[' :: (text ++ ']' :: '(' :: url)) = '\x00' by simp [cur]),
      if_neg (show ¬cur ('[' :: (text ++ ']' :: '(' :: url)) = '#' by simp [cur]),
      if_neg (show ¬cur ('[' :: (text ++ ']' :: '(' :: url)) = '*' by simp [cur]),
      if_pos (show cur ('[' :: (text ++ ']' :: '(' :: url)) = '[' from rfl)]
    show some (handle_link (text ++ ']' :: '(' :: url)) = _
    rw [hhl]
  constructor
  · rw [tokenize_eq_cons hgnt, tokenize_eq_nil get_next_token_nil]
  · unfold parse
    rw [tokenize_eq_cons hgnt, tokenize_eq_nil get_next_token_nil, tokensToHtml_single_text]

/-- Witness for claim C9 at the input `[a](http://x`. -/
theorem C9_unclosed_url_witness :
    parse ('[' :: ("a".data ++ ']' :: '(' :: "http://x".data)) =
      "<p>".data ++
        (escapeHtml ('[' :: ("a".data ++ ']' :: '(' :: "http://x".data)) ++ "</p>\n".data) :=
  (C9_unclosed_url "a".data "http://x".data (by decide) (by decide)).2

/-- Claim C10: two plain-text runs separated by a blank line lex to two Text
tokens whose payloads drop the newlines, and the renderer keeps the
paragraph open across them, emitting a single paragraph holding both runs
concatenated. -/
theorem C10_blank_line_merges (a b : List Char) (ha : a ≠ []) (hb : b ≠ [])
    (hca : ∀ c ∈ a, is_markdown_char c = false ∧ c ≠ '\n' ∧ c ≠ '\x00')
    (hcb : ∀ c ∈ b, is_markdown_char c = false ∧ c ≠ '\n' ∧ c ≠ '\x00') :
    tokenize (a ++ '\n' :: '\n' :: b) = [⟨.TEXT, a⟩, ⟨.TEXT, b⟩] ∧
    parse (a ++ '\n' :: '\n' :: b) =
      "<p>".data ++ (escapeHtml a ++ (escapeHtml b ++ "</p>\n".data)) := by
  obtain ⟨c, rest, rfl⟩ := List.exists_cons_of_ne_nil ha
  obtain ⟨c2, rest2, rfl⟩ := List.exists_cons_of_ne_nil hb
  have hc := hca c (by simp)
  have hmd : (((¬c = '#' ∧ ¬c = '*') ∧ ¬c = '[') ∧ ¬c = '!') ∧ ¬c = '-' := by
    simpa [is_markdown_char] using hc.1
  have hgnt1 : get_next_token ((c :: rest) ++ '\n' :: '\n' :: (c2 :: rest2)) =
      some (⟨.TEXT, c :: rest⟩, '\n' :: '\n' :: (c2 :: rest2)) := by
    have htr := textRun_blank (c :: rest) (c2 :: rest2)
      (fun x hx => ⟨(hca x hx).2.2, (hca x hx).1, (hca x hx).2.1⟩)
    rw [List.cons_append] at htr ⊢
    unfold get_next_token
    rw [if_neg (show ¬cur (c :: (rest ++ '\n' :: '\n' :: (c2 :: rest2))) = '\x00' by
      simpa [cur] using hc.2.2)]
    rw [dropWhile_nl_cons _ _ hc.2.1]
    rw [if_neg (show ¬cur (c :: (rest ++ '\n' :: '\n' :: (c2 :: rest2))) = '\x00' by
        simpa [cur] using hc.2.2),
      if_neg (by simpa [cur] using hmd.1.1.1.1),
      if_neg (by simpa [cur] using hmd.1.1.1.2),
      if_neg (by simpa [cur] using hmd.1.1.2),
      if_neg (by simpa [cur] using hmd.1.2),
      if_neg (by simpa [cur] using hmd.2)]
    simp only [htr, rtrimNl_eq_self (c :: rest) (fun x hx => (hca x hx).2.1)]
  have hgnt2 : get_next_token ('\n' :: '\n' :: (c2 :: rest2)) =
      some (⟨.TEXT, c2 :: rest2⟩, []) := by
    rw [get_next_token_cons_nl, get_next_token_cons_nl, get_next_token_clean c2 rest2 hcb]
  constructor
  · rw [tokenize_eq_cons hgnt1, tokenize_eq_cons hgnt2, tokenize_eq_nil get_next_token_nil]
  · unfold parse
    rw [tokenize_eq_cons hgnt1, tokenize_eq_cons hgnt2, tokenize_eq_nil get_next_token_nil,
      tokensToHtml_two_text]

/-- Witness for claim C10 at the input `a\n\nb`. -/
theorem C10_blank_line_merges_witness :
    parse ("a".data ++ '\n' :: '\n' :: "b".data) =
      "<p>".data ++ (escapeHtml "a".data ++ (escapeHtml "b".data ++ "</p>\n".data)) :=
  (C10_blank_line_merges "a".data "b".data (by decide) (by decide) (by decide)
    (by decide)).2

end Notedown
